import Mathlib

/-!
Verification of the load-balancer strategies: plain round robin, weighted
random and smooth weighted round robin, embedded from the Go sources in
`balance`.  Panics are modeled as `Option.none`; the random draw of the
weighted random balancer is passed as an explicit parameter.
-/

namespace Balance

/-- A weighted node of the smooth round robin balancer (`balance.Node`). -/
structure Node where
  server : String
  current : Int
  weight : Int
deriving DecidableEq

/-- Default node used by the total list indexing function `List.getD`. -/
def dNode : Node := { server := "", current := 0, weight := 0 }

/-- Per-entry weight ceiling (`maxWeight` in the source). -/
def maxWeight : Int := 1000000

/-- Pool total weight ceiling (`maxTotalWeight` in the source). -/
def maxTotalWeight : Int := 10000000

/-- Sum of the static weights of the nodes, as accumulated by the loops in
`NewSmoothRRBalancer` and `smoothRoundRobinBalancer.Next`. -/
def totalWeight (nodes : List Node) : Int := (nodes.map Node.weight).sum

/-- Validation loop of `NewSmoothRRBalancer`: each weight must be positive and
at most the per-entry ceiling while the total is accumulated; `none` models a
panic. -/
def validateLoop (total : Int) : List Node → Option Int
  | [] => some total
  | n :: tl =>
    if n.weight ≤ 0 then none
    else if n.weight > maxWeight then none
    else validateLoop (total + n.weight) tl

/-- `NewSmoothRRBalancer` from the source; a panic is modeled as `none`.  The
successfully constructed balancer is just its node list. -/
def NewSmoothRRBalancer (nodes : List Node) : Option (List Node) :=
  if nodes.length = 0 then none
  else
    match validateLoop 0 nodes with
    | none => none
    | some total => if total > maxTotalWeight then none else some nodes

/-- A node after the per-call increment `node.current += node.weight` done by
`Next`. -/
def incNode (n : Node) : Node := { n with current := n.current + n.weight }

/-- All nodes after the per-call increment of `Next`. -/
def incAll (nodes : List Node) : List Node := nodes.map incNode

/-- Best-node scan of `Next`: keep the current best and replace it when a later
node has strictly larger `current`, mirroring `node.current > bestNode.current`
(first maximal node wins). -/
def pickBestAux : Nat × Node → Nat → List Node → Nat × Node
  | best, _, [] => best
  | best, i, n :: tl =>
    pickBestAux (if n.current > best.2.current then (i, n) else best) (i + 1) tl

/-- Best node of a list with its index; `none` exactly when the list is empty
(`bestNode == nil` in the source). -/
def pickBest : List Node → Option (Nat × Node)
  | [] => none
  | n :: tl => some (pickBestAux (0, n) 1 tl)

/-- One `smoothRoundRobinBalancer.Next` call: increment every `current` by its
weight, select the first node with maximal `current`, subtract the total weight
from the selected node.  Returns the selected index, the returned node and the
updated node list; `none` for the empty list. -/
def smoothStep (nodes : List Node) : Option (Nat × Node × List Node) :=
  match pickBest (incAll nodes) with
  | none => none
  | some (i, b) =>
    some (i, { b with current := b.current - totalWeight nodes },
      (incAll nodes).set i { b with current := b.current - totalWeight nodes })

/-- Repeated `Next` calls from a node list: the list of selected indices and
the final node list. -/
def smoothRun (nodes : List Node) : Nat → List Nat × List Node
  | 0 => ([], nodes)
  | k + 1 =>
    match smoothStep (smoothRun nodes k).2 with
    | none => smoothRun nodes k
    | some (i, _, ns2) => ((smoothRun nodes k).1 ++ [i], ns2)

/-- Index selected by the k-th `Next` call (0-indexed) starting from `nodes`. -/
def selAt (nodes : List Node) (k : Nat) : Option Nat :=
  (smoothStep (smoothRun nodes k).2).map (fun p => p.1)

/-- A weighted server of the weighted random balancer (`balance.Server`). -/
structure Server where
  Addr : String
  Weight : Int
deriving DecidableEq

/-- Total weight computed by `RandomWeightBalancer.Next`. -/
def totalWeightS (servers : List Server) : Int := (servers.map Server.Weight).sum

/-- The subtractive walk of `RandomWeightBalancer.Next`: subtract each weight
from `idx` and stop at the first server making it negative; `none` models
falling off the end of the loop. -/
def walk (idx : Int) : List Server → Option Server
  | [] => none
  | s :: tl => if idx - s.Weight < 0 then some s else walk (idx - s.Weight) tl

/-- `RandomWeightBalancer.Next` as a function of the random draw (the source
draws `idx = rng.Intn(totalWeight)`): the sentinel `""` for an empty list or a
non-positive total, otherwise the subtractive walk with the trailing fallback
`servers[0].Addr`. -/
def RandomWeightNext (servers : List Server) (draw : Int) : String :=
  match servers with
  | [] => ""
  | s0 :: tl =>
    if totalWeightS (s0 :: tl) ≤ 0 then ""
    else
      match walk draw (s0 :: tl) with
      | some s => s.Addr
      | none => s0.Addr

/-- Cumulative weight of the entries up to and including index `i` (the
characterization used by the specification of the weighted random choice). -/
def cumWeight (servers : List Server) (i : Nat) : Int :=
  ((servers.take (i + 1)).map Server.Weight).sum

/-- Size of the `uint64` counter space of the plain round robin balancer. -/
def U64 : Nat := 18446744073709551616

/-- `RoundRobinBalancer` from the source: the server list and the `uint64`
counter (kept below `U64`). -/
structure RoundRobinBalancer where
  servers : List String
  index : Nat
deriving DecidableEq

/-- `NewRoundRobinBalancer` from the source: stores the list with the counter
at zero.  It has no panic path, so under the panic-as-`none` convention it is
always `some`. -/
def NewRoundRobinBalancer (servers : List String) : Option RoundRobinBalancer :=
  some { servers := servers, index := 0 }

/-- `RoundRobinBalancer.Next`: the empty list returns the sentinel; otherwise
the counter is atomically incremented with `uint64` wrap-around and the server
at `(newVal - 1) % N` is returned, `newVal - 1` being computed in `uint64`
arithmetic. -/
def rrNext (b : RoundRobinBalancer) : String × RoundRobinBalancer :=
  if b.servers.length = 0 then ("", b)
  else
    let newVal := (b.index + 1) % U64
    let idx := ((newVal + (U64 - 1)) % U64) % b.servers.length
    (b.servers.getD idx "", { b with index := newVal })

/-- State of the plain round robin balancer after `k` calls. -/
def rrRun (b : RoundRobinBalancer) : Nat → RoundRobinBalancer
  | 0 => b
  | k + 1 => (rrNext (rrRun b k)).2

/-- Sample node pools used in concrete checks. -/
def nodes511 : List Node :=
  [{ server := "a", current := 0, weight := 5 },
   { server := "b", current := 0, weight := 1 },
   { server := "c", current := 0, weight := 1 }]

/-- Sum of the mutable accumulators of a node list. -/
def sumCurrent (ns : List Node) : Int := (ns.map Node.current).sum

/-- Weight 4 versus 1 pool from the smoothness property. -/
def nodes41 : List Node :=
  [{ server := "a", current := 0, weight := 4 },
   { server := "b", current := 0, weight := 1 }]

/-! ### List helper lemmas -/

lemma getD_set_self {α : Type} (l : List α) (i : Nat) (b d : α) (h : i < l.length) :
    (l.set i b).getD i d = b := by
  induction l generalizing i with
  | nil => simp at h
  | cons x tl ih =>
    cases i with
    | zero => rfl
    | succ n =>
      simp only [List.set, List.getD_cons_succ]
      exact ih n (Nat.lt_of_succ_lt_succ h)

lemma getD_set_ne {α : Type} (l : List α) (i j : Nat) (b d : α) (h : i ≠ j) :
    (l.set i b).getD j d = l.getD j d := by
  induction l generalizing i j with
  | nil => simp [List.set]
  | cons x tl ih =>
    cases i with
    | zero =>
      cases j with
      | zero => exact absurd rfl h
      | succ m => simp [List.set, List.getD_cons_succ]
    | succ n =>
      cases j with
      | zero => simp [List.set, List.getD_cons_zero]
      | succ m =>
        simp only [List.set, List.getD_cons_succ]
        exact ih n m (fun hnm => h (by rw [hnm]))

lemma getD_mem {α : Type} (l : List α) (i : Nat) (d : α) (h : i < l.length) :
    l.getD i d ∈ l := by
  induction l generalizing i with
  | nil => simp at h
  | cons x tl ih =>
    cases i with
    | zero => exact List.mem_cons_self x tl
    | succ n =>
      simp only [List.getD_cons_succ]
      exact List.mem_cons_of_mem x (ih n (Nat.lt_of_succ_lt_succ h))

lemma getD_incAll (ns : List Node) (i : Nat) (h : i < ns.length) :
    (incAll ns).getD i dNode = incNode (ns.getD i dNode) := by
  induction ns generalizing i with
  | nil => simp at h
  | cons x tl ih =>
    cases i with
    | zero => rfl
    | succ n =>
      simp only [incAll, List.map_cons, List.getD_cons_succ]
      exact ih n (Nat.lt_of_succ_lt_succ h)

lemma length_incAll (ns : List Node) : (incAll ns).length = ns.length := by
  simp [incAll]

lemma sum_map_getD (f : Node → Int) (ns : List Node) :
    (ns.map f).sum = ∑ j in Finset.range ns.length, f (ns.getD j dNode) := by
  induction ns with
  | nil => simp
  | cons n tl ih =>
    rw [List.length_cons, Finset.sum_range_succ']
    simp only [List.map_cons, List.sum_cons, List.getD_cons_succ, List.getD_cons_zero, ih]
    ring

lemma totalWeight_eq_sum (ns : List Node) :
    totalWeight ns = ∑ j in Finset.range ns.length, (ns.getD j dNode).weight :=
  sum_map_getD Node.weight ns

lemma sumCurrent_eq_sum (ns : List Node) :
    sumCurrent ns = ∑ j in Finset.range ns.length, (ns.getD j dNode).current :=
  sum_map_getD Node.current ns

lemma sum_count_range (l : List Nat) (len : Nat) (h : ∀ x ∈ l, x < len) :
    ∑ j in Finset.range len, (l.count j : Int) = l.length := by
  induction l with
  | nil => simp
  | cons x tl ih =>
    have hx : x < len := h x (List.mem_cons_self x tl)
    have htl : ∀ y ∈ tl, y < len := fun y hy => h y (List.mem_cons_of_mem x hy)
    have hcnt : ∀ j, ((x :: tl).count j : Int) = (tl.count j : Int) + if j = x then 1 else 0 := by
      intro j
      by_cases hj : j = x <;> simp [List.count_cons, hj]
    rw [Finset.sum_congr rfl (fun j _ => hcnt j), Finset.sum_add_distrib, ih htl]
    rw [Finset.sum_ite_eq' (Finset.range len) x (fun _ => (1 : Int))]
    simp [Finset.mem_range.mpr hx]

lemma totalWeight_cons (n : Node) (tl : List Node) :
    totalWeight (n :: tl) = n.weight + totalWeight tl := by
  simp [totalWeight]

lemma totalWeight_nonneg (ns : List Node) (h : ∀ n ∈ ns, 0 < n.weight) :
    0 ≤ totalWeight ns := by
  induction ns with
  | nil => simp [totalWeight]
  | cons n tl ih =>
    rw [totalWeight_cons]
    have h1 : 0 < n.weight := h n (List.mem_cons_self n tl)
    have h2 : 0 ≤ totalWeight tl := ih (fun m hm => h m (List.mem_cons_of_mem n hm))
    omega

lemma totalWeight_pos (ns : List Node) (hne : ns ≠ []) (h : ∀ n ∈ ns, 0 < n.weight) :
    0 < totalWeight ns := by
  cases ns with
  | nil => exact absurd rfl hne
  | cons n tl =>
    rw [totalWeight_cons]
    have h1 : 0 < n.weight := h n (List.mem_cons_self n tl)
    have h2 : 0 ≤ totalWeight tl :=
      totalWeight_nonneg tl (fun m hm => h m (List.mem_cons_of_mem n hm))
    omega

/-! ### Characterization of the best-node scan and of one smooth step -/

lemma pickBestAux_spec (tl : List Node) : ∀ (best : Nat × Node) (i0 : Nat),
    (pickBestAux best i0 tl = best ∨
      ∃ k, ∃ hk : k < tl.length, pickBestAux best i0 tl = (i0 + k, tl.get ⟨k, hk⟩)) ∧
    best.2.current ≤ (pickBestAux best i0 tl).2.current ∧
    ∀ n ∈ tl, n.current ≤ (pickBestAux best i0 tl).2.current := by
  induction tl with
  | nil =>
    intro best i0
    exact ⟨Or.inl rfl, le_refl _, by simp⟩
  | cons n tl ih =>
    intro best i0
    have hunf : pickBestAux best i0 (n :: tl) =
        pickBestAux (if n.current > best.2.current then (i0, n) else best) (i0 + 1) tl := rfl
    obtain ⟨hmem, hge, hall⟩ :=
      ih (if n.current > best.2.current then (i0, n) else best) (i0 + 1)
    have hb1 : best.2.current ≤
        (if n.current > best.2.current then (i0, n) else best).2.current := by
      by_cases hc : n.current > best.2.current
      · rw [if_pos hc]
        exact le_of_lt hc
      · rw [if_neg hc]
    have hn1 : n.current ≤
        (if n.current > best.2.current then (i0, n) else best).2.current := by
      by_cases hc : n.current > best.2.current
      · rw [if_pos hc]
      · rw [if_neg hc]
        exact le_of_not_lt hc
    refine ⟨?_, ?_, ?_⟩
    · rcases hmem with h | ⟨k, hk, h⟩
      · by_cases hc : n.current > best.2.current
        · right
          refine ⟨0, by simp, ?_⟩
          rw [hunf, h, if_pos hc]
          simp
        · left
          rw [hunf, h, if_neg hc]
      · right
        refine ⟨k + 1, Nat.succ_lt_succ hk, ?_⟩
        rw [hunf, h]
        rw [show i0 + 1 + k = i0 + (k + 1) from by omega]
        rfl
    · rw [hunf]
      exact le_trans hb1 hge
    · intro m hm
      rcases List.mem_cons.mp hm with h | h
      · rw [hunf, h]
        exact le_trans hn1 hge
      · rw [hunf]
        exact hall m h

lemma pickBest_spec (ns : List Node) (h : ns ≠ []) :
    ∃ i, ∃ hi : i < ns.length,
      pickBest ns = some (i, ns.get ⟨i, hi⟩) ∧
      ∀ n ∈ ns, n.current ≤ (ns.get ⟨i, hi⟩).current := by
  cases ns with
  | nil => exact absurd rfl h
  | cons n tl =>
    obtain ⟨hmem, hge, hall⟩ := pickBestAux_spec tl (0, n) 1
    have hallcons : ∀ m ∈ n :: tl, m.current ≤ (pickBestAux (0, n) 1 tl).2.current := by
      intro m hm
      rcases List.mem_cons.mp hm with hh | hh
      · rw [hh]; exact hge
      · exact hall m hh
    rcases hmem with heq | ⟨k, hk, heq⟩
    · refine ⟨0, Nat.succ_pos _, ?_, ?_⟩
      · show some (pickBestAux (0, n) 1 tl) = _
        rw [heq]
        rfl
      · intro m hm
        have := hallcons m hm
        rw [heq] at this
        exact this
    · refine ⟨k + 1, Nat.succ_lt_succ hk, ?_, ?_⟩
      · show some (pickBestAux (0, n) 1 tl) = _
        rw [heq]
        have harith : 1 + k = k + 1 := by omega
        simp only [harith]
        rfl
      · intro m hm
        have := hallcons m hm
        rw [heq] at this
        exact this

lemma getD_eq_get (l : List Node) (i : Nat) (h : i < l.length) :
    l.getD i dNode = l.get ⟨i, h⟩ := by
  induction l generalizing i with
  | nil => simp at h
  | cons x tl ih =>
    cases i with
    | zero => rfl
    | succ n =>
      simp only [List.getD_cons_succ]
      exact ih n (Nat.lt_of_succ_lt_succ h)

lemma smoothStep_spec (ns : List Node) (h : ns ≠ []) :
    ∃ i b2 ns2,
      smoothStep ns = some (i, b2, ns2) ∧
      i < ns.length ∧
      ns2.length = ns.length ∧
      b2.server = (ns.getD i dNode).server ∧
      b2.weight = (ns.getD i dNode).weight ∧
      b2.current = (ns.getD i dNode).current + (ns.getD i dNode).weight - totalWeight ns ∧
      (∀ j, j < ns.length → j ≠ i → ns2.getD j dNode = incNode (ns.getD j dNode)) ∧
      ns2.getD i dNode = b2 ∧
      (∀ j, j < ns.length →
        (ns.getD j dNode).current + (ns.getD j dNode).weight ≤
          (ns.getD i dNode).current + (ns.getD i dNode).weight) := by
  have hincne : incAll ns ≠ [] := by
    cases ns with
    | nil => exact absurd rfl h
    | cons x tl => simp [incAll]
  obtain ⟨i, hi, hpick, hmax⟩ := pickBest_spec (incAll ns) hincne
  have hilen : i < ns.length := by
    rw [← length_incAll ns]; exact hi
  have hbget : (incAll ns).get ⟨i, hi⟩ = incNode (ns.getD i dNode) := by
    rw [← getD_eq_get (incAll ns) i hi]
    exact getD_incAll ns i hilen
  refine ⟨i, { incNode (ns.getD i dNode) with
      current := (incNode (ns.getD i dNode)).current - totalWeight ns },
    (incAll ns).set i { incNode (ns.getD i dNode) with
      current := (incNode (ns.getD i dNode)).current - totalWeight ns }, ?_, hilen, ?_, ?_, ?_, ?_, ?_, ?_, ?_⟩
  · show smoothStep ns = _
    unfold smoothStep
    rw [hpick, hbget]
  · rw [List.length_set, length_incAll]
  · rfl
  · rfl
  · simp [incNode]
  · intro j hj hji
    rw [getD_set_ne _ _ _ _ _ (fun hh => hji hh.symm)]
    exact getD_incAll ns j hj
  · exact getD_set_self _ _ _ _ (by rw [length_incAll]; exact hilen)
  · intro j hj
    have hmem : (incAll ns).getD j dNode ∈ incAll ns :=
      getD_mem _ _ _ (by rw [length_incAll]; exact hj)
    have h2 := hmax _ hmem
    rw [getD_incAll ns j hj, hbget] at h2
    simpa [incNode] using h2

/-! ### Sum preservation of one smooth step -/

lemma smoothStep_sumCurrent (ns : List Node) (i : Nat) (b2 : Node) (ns2 : List Node)
    (h : smoothStep ns = some (i, b2, ns2)) : sumCurrent ns2 = sumCurrent ns := by
  have hne : ns ≠ [] := by
    intro hnil
    rw [hnil] at h
    simp [smoothStep, incAll, pickBest] at h
  obtain ⟨i', b2', ns2', hstep, hilen, hlen, _, _, hb2cur, hoth, hself, _⟩ :=
    smoothStep_spec ns hne
  have heq := hstep.symm.trans h
  simp only [Option.some.injEq, Prod.mk.injEq] at heq
  obtain ⟨hieq, hbeq, hnseq⟩ := heq
  subst hieq
  subst hbeq
  subst hnseq
  rw [sumCurrent_eq_sum, sumCurrent_eq_sum, hlen]
  have hpoint : ∀ j ∈ Finset.range ns.length,
      (ns2'.getD j dNode).current =
        ((ns.getD j dNode).current + (ns.getD j dNode).weight) +
          (if j = i' then -(totalWeight ns) else 0) := by
    intro j hj
    rw [Finset.mem_range] at hj
    by_cases hji : j = i'
    · subst hji
      rw [hself, hb2cur, if_pos rfl]
      ring
    · rw [hoth j hj hji]
      simp [incNode, hji]
  rw [Finset.sum_congr rfl hpoint, Finset.sum_add_distrib, Finset.sum_add_distrib]
  rw [Finset.sum_ite_eq' (Finset.range ns.length) i' (fun _ => -(totalWeight ns))]
  rw [← totalWeight_eq_sum]
  simp [Finset.mem_range.mpr hilen]

/-! ### The per-call invariant of the smooth balancer -/

lemma smoothRun_succ (ns : List Node) (k : Nat) :
    smoothRun ns (k + 1) =
      match smoothStep (smoothRun ns k).2 with
      | none => smoothRun ns k
      | some (i, _, ns2) => ((smoothRun ns k).1 ++ [i], ns2) := rfl

lemma smoothRun_inv (ns0 : List Node) (hne : ns0 ≠ [])
    (hw : ∀ n ∈ ns0, 0 < n.weight) (hc : ∀ n ∈ ns0, n.current = 0) (k : Nat) :
    ((smoothRun ns0 k).1.length = k) ∧
    (∀ x ∈ (smoothRun ns0 k).1, x < ns0.length) ∧
    ((smoothRun ns0 k).2.length = ns0.length) ∧
    (∀ j, j < ns0.length →
      ((smoothRun ns0 k).2.getD j dNode).weight = (ns0.getD j dNode).weight ∧
      ((smoothRun ns0 k).2.getD j dNode).current =
        k * (ns0.getD j dNode).weight - ((smoothRun ns0 k).1.count j) * totalWeight ns0 ∧
      -(totalWeight ns0) < ((smoothRun ns0 k).2.getD j dNode).current) := by
  have hT : 0 < totalWeight ns0 := totalWeight_pos ns0 hne hw
  induction k with
  | zero =>
    refine ⟨rfl, by simp [smoothRun], rfl, ?_⟩
    intro j hj
    have hmem : ns0.getD j dNode ∈ ns0 := getD_mem ns0 j dNode hj
    have h0 : (ns0.getD j dNode).current = 0 := hc _ hmem
    refine ⟨rfl, ?_, ?_⟩
    · show (ns0.getD j dNode).current = _
      rw [h0]
      simp [smoothRun]
    · show -(totalWeight ns0) < (ns0.getD j dNode).current
      rw [h0]
      omega
  | succ k ih =>
    obtain ⟨ihlen, ihmem, ihst, ihj⟩ := ih
    have hstne : (smoothRun ns0 k).2 ≠ [] := by
      intro hnil
      rw [hnil] at ihst
      simp at ihst
      exact hne (List.eq_nil_of_length_eq_zero ihst.symm)
    obtain ⟨i, b2, ns2, hstep, hilen, hlen, hbsrv, hbw, hbcur, hoth, hself, hmaxx⟩ :=
      smoothStep_spec (smoothRun ns0 k).2 hstne
    have hilen0 : i < ns0.length := by rw [← ihst]; exact hilen
    have hrun : smoothRun ns0 (k + 1) = ((smoothRun ns0 k).1 ++ [i], ns2) := by
      rw [smoothRun_succ, hstep]
    have hrun1 : (smoothRun ns0 (k + 1)).1 = (smoothRun ns0 k).1 ++ [i] := by
      rw [hrun]
    have hrun2 : (smoothRun ns0 (k + 1)).2 = ns2 := by
      rw [hrun]
    -- the weights of the running state agree with the initial ones
    have hTst : totalWeight (smoothRun ns0 k).2 = totalWeight ns0 := by
      rw [totalWeight_eq_sum, totalWeight_eq_sum, ihst]
      exact Finset.sum_congr rfl
        (fun j hj => (ihj j (Finset.mem_range.mp hj)).1)
    -- the incremented currents sum to the total weight
    have hsum : (∑ j in Finset.range ns0.length,
        (((smoothRun ns0 k).2.getD j dNode).current +
          ((smoothRun ns0 k).2.getD j dNode).weight)) = totalWeight ns0 := by
      rw [Finset.sum_add_distrib]
      have h1 : (∑ j in Finset.range ns0.length,
          ((smoothRun ns0 k).2.getD j dNode).current) = 0 := by
        have := Finset.sum_congr rfl
          (fun j hj => (ihj j (Finset.mem_range.mp hj)).2.1)
        rw [this, Finset.sum_sub_distrib, ← Finset.sum_mul, ← Finset.mul_sum]
        rw [sum_count_range _ _ ihmem, ihlen, ← totalWeight_eq_sum]
        ring
      have h2 : (∑ j in Finset.range ns0.length,
          ((smoothRun ns0 k).2.getD j dNode).weight) = totalWeight ns0 := by
        rw [totalWeight_eq_sum]
        exact Finset.sum_congr rfl
          (fun j hj => (ihj j (Finset.mem_range.mp hj)).1)
      rw [h1, h2]
      ring
    -- the selected node has a positive incremented current
    have hposmax : 1 ≤ ((smoothRun ns0 k).2.getD i dNode).current +
        ((smoothRun ns0 k).2.getD i dNode).weight := by
      have hlt : (∑ _j in Finset.range ns0.length, (0 : Int)) <
          ∑ j in Finset.range ns0.length,
            (((smoothRun ns0 k).2.getD j dNode).current +
              ((smoothRun ns0 k).2.getD j dNode).weight) := by
        rw [hsum, Finset.sum_const, smul_zero]
        exact hT
      obtain ⟨j0, hj0mem, hj0⟩ := Finset.exists_lt_of_sum_lt hlt
      have hmx := hmaxx j0 (by rw [ihst]; exact Finset.mem_range.mp hj0mem)
      omega
    refine ⟨?_, ?_, ?_, ?_⟩
    · rw [hrun1]; simp [ihlen]
    · rw [hrun1]
      intro x hx
      rcases List.mem_append.mp hx with hx | hx
      · exact ihmem x hx
      · rw [List.mem_singleton.mp hx]
        exact hilen0
    · rw [hrun2, hlen, ihst]
    · intro j hj
      have hjst : j < (smoothRun ns0 k).2.length := by rw [ihst]; exact hj
      obtain ⟨ihw, ihcur, ihbd⟩ := ihj j hj
      have hwpos : 0 < (ns0.getD j dNode).weight :=
        hw _ (getD_mem ns0 j dNode hj)
      have hcount : (((smoothRun ns0 k).1 ++ [i]).count j : Int) =
          ((smoothRun ns0 k).1.count j : Int) + (if j = i then 1 else 0) := by
        by_cases hji : j = i <;> simp [List.count_append, hji]
      rw [hrun1, hrun2]
      by_cases hji : j = i
      · subst hji
        rw [hself]
        refine ⟨by rw [hbw]; exact ihw, ?_, ?_⟩
        · rw [hbcur, hTst, hcount, ihcur, ihw, if_pos rfl]
          push_cast
          ring
        · rw [hbcur, hTst]
          omega
      · rw [hoth j hjst hji]
        refine ⟨by exact ihw, ?_, ?_⟩
        · show ((smoothRun ns0 k).2.getD j dNode).current +
            ((smoothRun ns0 k).2.getD j dNode).weight = _
          rw [hcount, ihcur, ihw, if_neg hji]
          push_cast
          ring
        · show -(totalWeight ns0) < ((smoothRun ns0 k).2.getD j dNode).current +
            ((smoothRun ns0 k).2.getD j dNode).weight
          omega

/-- C1: for the smooth weighted round robin balancer constructed from entries
with positive weights and all current accumulators zero, over the first
`Σw_i` consecutive `Next` calls each entry `i` is returned exactly `w_i`
times. -/
theorem smoothRR_first_cycle_counts (ns0 : List Node) (hne : ns0 ≠ [])
    (hw : ∀ n ∈ ns0, 0 < n.weight) (hc : ∀ n ∈ ns0, n.current = 0) :
    ∀ j, j < ns0.length →
      (((smoothRun ns0 (totalWeight ns0).toNat).1.count j : Int) =
        (ns0.getD j dNode).weight) := by
  have hT : 0 < totalWeight ns0 := totalWeight_pos ns0 hne hw
  have htT : (((totalWeight ns0).toNat : Nat) : Int) = totalWeight ns0 :=
    Int.toNat_of_nonneg (le_of_lt hT)
  obtain ⟨hlen, hmem, hst, hj⟩ := smoothRun_inv ns0 hne hw hc (totalWeight ns0).toNat
  have hub : ∀ j, j < ns0.length →
      ((smoothRun ns0 (totalWeight ns0).toNat).1.count j : Int) ≤
        (ns0.getD j dNode).weight := by
    intro j hjl
    obtain ⟨_, hcur, hbd⟩ := hj j hjl
    rw [hcur, htT] at hbd
    by_contra hcon
    push_neg at hcon
    have h1 : (ns0.getD j dNode).weight + 1 ≤
        ((smoothRun ns0 (totalWeight ns0).toNat).1.count j : Int) := by omega
    nlinarith [h1, hT, hbd]
  have hsn : ∑ j in Finset.range ns0.length,
      ((smoothRun ns0 (totalWeight ns0).toNat).1.count j : Int) =
        ((totalWeight ns0).toNat : Int) := by
    rw [sum_count_range _ _ hmem, hlen]
  have hsw : ∑ j in Finset.range ns0.length, (ns0.getD j dNode).weight =
      ((totalWeight ns0).toNat : Int) := by
    rw [← totalWeight_eq_sum, htT]
  have hzero : ∑ j in Finset.range ns0.length,
      ((ns0.getD j dNode).weight -
        ((smoothRun ns0 (totalWeight ns0).toNat).1.count j : Int)) = 0 := by
    rw [Finset.sum_sub_distrib, hsn, hsw]
    ring
  have hnonneg : ∀ j ∈ Finset.range ns0.length,
      0 ≤ (ns0.getD j dNode).weight -
        ((smoothRun ns0 (totalWeight ns0).toNat).1.count j : Int) := by
    intro j hjm
    have := hub j (Finset.mem_range.mp hjm)
    omega
  have hall := (Finset.sum_eq_zero_iff_of_nonneg hnonneg).mp hzero
  intro j hjl
  have := hall j (Finset.mem_range.mpr hjl)
  omega

/-- Witness for C1 at weights `[5, 1, 1]`: the first 7 calls return entry 0
(server a) five times and entries 1 and 2 (servers b and c) once each. -/
theorem smoothRR_first_cycle_counts_witness :
    ((smoothRun nodes511 7).1.count 0 : Int) = 5 ∧
    ((smoothRun nodes511 7).1.count 1 : Int) = 1 ∧
    ((smoothRun nodes511 7).1.count 2 : Int) = 1 ∧
    nodes511.map Node.server = ["a", "b", "c"] := by
  have h7 : (totalWeight nodes511).toNat = 7 := by decide
  have h0 := smoothRR_first_cycle_counts nodes511 (by decide) (by decide) (by decide)
    0 (by decide)
  have h1 := smoothRR_first_cycle_counts nodes511 (by decide) (by decide) (by decide)
    1 (by decide)
  have h2 := smoothRR_first_cycle_counts nodes511 (by decide) (by decide) (by decide)
    2 (by decide)
  rw [h7] at h0 h1 h2
  refine ⟨?_, ?_, ?_, by decide⟩
  · rw [h0]; decide
  · rw [h1]; decide
  · rw [h2]; decide

lemma sumCurrent_zero (ns : List Node) (h : ∀ n ∈ ns, n.current = 0) :
    sumCurrent ns = 0 := by
  apply List.sum_eq_zero
  intro x hx
  obtain ⟨n, hn, rfl⟩ := List.mem_map.mp hx
  exact h n hn

/-- C9: every `Next` call of the smooth weighted round robin balancer leaves
the sum of the current accumulators unchanged; in particular, starting from
all-zero accumulators the sum is 0 after every call. -/
theorem smoothRR_sumCurrent_invariant :
    (∀ (ns : List Node) (i : Nat) (b2 : Node) (ns2 : List Node),
      smoothStep ns = some (i, b2, ns2) → sumCurrent ns2 = sumCurrent ns) ∧
    (∀ ns : List Node, (∀ n ∈ ns, n.current = 0) →
      ∀ k, sumCurrent (smoothRun ns k).2 = 0) := by
  refine ⟨smoothStep_sumCurrent, ?_⟩
  intro ns hzero k
  induction k with
  | zero => exact sumCurrent_zero ns hzero
  | succ k ih =>
    rw [smoothRun_succ]
    rcases hstep : smoothStep (smoothRun ns k).2 with _ | ⟨⟨i, b2, ns2⟩⟩
    · exact ih
    · have := smoothStep_sumCurrent _ _ _ _ hstep
      simp only
      rw [this]
      exact ih

/-- Witness for C9: one concrete call on the `[4, 1]` pool keeps the
accumulator sum at its previous value. -/
theorem smoothRR_sumCurrent_invariant_witness :
    sumCurrent [{ server := "a", current := -1, weight := 4 },
      { server := "b", current := 1, weight := 1 }] = sumCurrent nodes41 ∧
    sumCurrent (smoothRun nodes41 3).2 = 0 :=
  ⟨smoothRR_sumCurrent_invariant.1 nodes41 0
      { server := "a", current := -1, weight := 4 }
      [{ server := "a", current := -1, weight := 4 },
        { server := "b", current := 1, weight := 1 }] (by decide),
    smoothRR_sumCurrent_invariant.2 nodes41 (by decide) 3⟩

lemma validateLoop_eq_none (t : Int) (ns : List Node) :
    validateLoop t ns = none ↔ ∃ n ∈ ns, (n.weight ≤ 0 ∨ n.weight > maxWeight) := by
  induction ns generalizing t with
  | nil => simp [validateLoop]
  | cons n tl ih =>
    simp only [validateLoop]
    by_cases h1 : n.weight ≤ 0
    · rw [if_pos h1]
      constructor
      · intro _
        exact ⟨n, List.mem_cons_self n tl, Or.inl h1⟩
      · intro _
        rfl
    · rw [if_neg h1]
      by_cases h2 : n.weight > maxWeight
      · rw [if_pos h2]
        constructor
        · intro _
          exact ⟨n, List.mem_cons_self n tl, Or.inr h2⟩
        · intro _
          rfl
      · rw [if_neg h2, ih (t + n.weight)]
        constructor
        · rintro ⟨m, hm, hmw⟩
          exact ⟨m, List.mem_cons_of_mem n hm, hmw⟩
        · rintro ⟨m, hm, hmw⟩
          rcases List.mem_cons.mp hm with he | hm2
          · subst he
            rcases hmw with h | h
            · exact absurd h h1
            · exact absurd h h2
          · exact ⟨m, hm2, hmw⟩

lemma validateLoop_eq_some (t : Int) (ns : List Node)
    (h : ∀ n ∈ ns, 0 < n.weight ∧ n.weight ≤ maxWeight) :
    validateLoop t ns = some (t + totalWeight ns) := by
  induction ns generalizing t with
  | nil => simp [validateLoop, totalWeight]
  | cons n tl ih =>
    obtain ⟨hp, hm⟩ := h n (List.mem_cons_self n tl)
    simp only [validateLoop]
    rw [if_neg (by omega), if_neg (by omega)]
    rw [ih (t + n.weight) (fun m hm2 => h m (List.mem_cons_of_mem n hm2))]
    rw [totalWeight_cons]
    congr 1
    ring

/-- C4: constructing the smooth weighted round robin balancer panics exactly
when the node list is empty, some weight is non-positive, some weight exceeds
the per-entry ceiling, or the total weight exceeds the pool ceiling; otherwise
it returns the given nodes unchanged. -/
theorem NewSmoothRRBalancer_panics_iff (nodes : List Node) :
    (NewSmoothRRBalancer nodes = none ↔
      (nodes = [] ∨ (∃ n ∈ nodes, n.weight ≤ 0) ∨ (∃ n ∈ nodes, n.weight > maxWeight) ∨
        totalWeight nodes > maxTotalWeight)) ∧
    (NewSmoothRRBalancer nodes ≠ none → NewSmoothRRBalancer nodes = some nodes) := by
  by_cases hnil : nodes = []
  · subst hnil
    refine ⟨⟨fun _ => Or.inl rfl, fun _ => rfl⟩, fun hne => absurd rfl hne⟩
  have hlen : ¬ nodes.length = 0 := fun h => hnil (List.eq_nil_of_length_eq_zero h)
  by_cases hbad : ∃ n ∈ nodes, n.weight ≤ 0 ∨ n.weight > maxWeight
  · have hv : validateLoop 0 nodes = none := (validateLoop_eq_none 0 nodes).mpr hbad
    have hres : NewSmoothRRBalancer nodes = none := by
      unfold NewSmoothRRBalancer
      rw [if_neg hlen, hv]
    refine ⟨⟨fun _ => ?_, fun _ => hres⟩, fun hne => absurd hres hne⟩
    obtain ⟨n, hm, hw2⟩ := hbad
    rcases hw2 with h | h
    · exact Or.inr (Or.inl ⟨n, hm, h⟩)
    · exact Or.inr (Or.inr (Or.inl ⟨n, hm, h⟩))
  · push_neg at hbad
    have hv : validateLoop 0 nodes = some (totalWeight nodes) := by
      have hgood : ∀ n ∈ nodes, 0 < n.weight ∧ n.weight ≤ maxWeight := fun n hm => by
        have := hbad n hm
        omega
      have := validateLoop_eq_some 0 nodes hgood
      rwa [zero_add] at this
    by_cases htot : totalWeight nodes > maxTotalWeight
    · have hres : NewSmoothRRBalancer nodes = none := by
        unfold NewSmoothRRBalancer
        rw [if_neg hlen, hv]
        show (if totalWeight nodes > maxTotalWeight then none else some nodes) = none
        rw [if_pos htot]
      refine ⟨⟨fun _ => Or.inr (Or.inr (Or.inr htot)), fun _ => hres⟩,
        fun hne => absurd hres hne⟩
    · have hres : NewSmoothRRBalancer nodes = some nodes := by
        unfold NewSmoothRRBalancer
        rw [if_neg hlen, hv]
        show (if totalWeight nodes > maxTotalWeight then none else some nodes) = some nodes
        rw [if_neg htot]
      refine ⟨⟨fun h => ?_, ?_⟩, fun _ => hres⟩
      · rw [hres] at h
        exact Option.noConfusion h
      · rintro (h | ⟨n, hm, h⟩ | ⟨n, hm, h⟩ | h)
        · exact absurd h hnil
        · have := hbad n hm
          omega
        · have := hbad n hm
          omega
        · exact absurd h htot

/-- Witness for C4: the `[4, 1]` pool passes every construction check. -/
theorem NewSmoothRRBalancer_panics_iff_witness :
    NewSmoothRRBalancer nodes41 = some nodes41 :=
  (NewSmoothRRBalancer_panics_iff nodes41).2 (by decide)

/-- C5: when the total weight is non-positive (all weights non-positive or the
list empty), every `Next` call of the weighted random balancer returns the
empty-string sentinel, whatever the draw. -/
theorem RandomWeightNext_zero_total (servers : List Server) (draw : Int)
    (h : totalWeightS servers ≤ 0) : RandomWeightNext servers draw = "" := by
  cases servers with
  | nil => rfl
  | cons s tl =>
    show (if totalWeightS (s :: tl) ≤ 0 then ""
      else match walk draw (s :: tl) with
        | some s2 => s2.Addr
        | none => s.Addr) = ""
    rw [if_pos h]

/-- Witness for C5: two zero-weight servers yield the sentinel. -/
theorem RandomWeightNext_zero_total_witness :
    RandomWeightNext [{ Addr := "a", Weight := 0 }, { Addr := "b", Weight := 0 }] 0 = "" :=
  RandomWeightNext_zero_total _ 0 (by decide)

lemma totalWeightS_cons (s : Server) (tl : List Server) :
    totalWeightS (s :: tl) = s.Weight + totalWeightS tl := by
  simp [totalWeightS]

lemma cumWeight_cons_zero (s : Server) (tl : List Server) :
    cumWeight (s :: tl) 0 = s.Weight := by
  simp [cumWeight]

lemma cumWeight_cons_succ (s : Server) (tl : List Server) (i : Nat) :
    cumWeight (s :: tl) (i + 1) = s.Weight + cumWeight tl i := by
  simp [cumWeight]

/-- The subtractive walk of the weighted random balancer, started on a
non-negative draw below the total weight, stops exactly at the first entry
whose cumulative weight exceeds the draw; that entry has positive weight. -/
lemma walk_spec (servers : List Server) : ∀ r : Int, 0 ≤ r → r < totalWeightS servers →
    ∃ i, ∃ hi : i < servers.length,
      walk r servers = some (servers.get ⟨i, hi⟩) ∧
      0 < (servers.get ⟨i, hi⟩).Weight ∧
      r < cumWeight servers i ∧
      ∀ j, j < i → cumWeight servers j ≤ r := by
  induction servers with
  | nil =>
    intro r h0 hlt
    simp [totalWeightS] at hlt
    omega
  | cons s tl ih =>
    intro r h0 hlt
    by_cases hcase : r - s.Weight < 0
    · refine ⟨0, Nat.succ_pos _, ?_, ?_, ?_, ?_⟩
      · show (if r - s.Weight < 0 then some s else walk (r - s.Weight) tl) = _
        rw [if_pos hcase]
        rfl
      · show 0 < s.Weight
        omega
      · rw [cumWeight_cons_zero]
        omega
      · intro j hj
        omega
    · have h0_2 : 0 ≤ r - s.Weight := by omega
      have hlt2 : r - s.Weight < totalWeightS tl := by
        have := totalWeightS_cons s tl
        omega
      obtain ⟨i, hi, hwalk, hpos, hcum, hfirst⟩ := ih (r - s.Weight) h0_2 hlt2
      refine ⟨i + 1, Nat.succ_lt_succ hi, ?_, ?_, ?_, ?_⟩
      · show (if r - s.Weight < 0 then some s else walk (r - s.Weight) tl) = _
        rw [if_neg hcase]
        exact hwalk
      · exact hpos
      · rw [cumWeight_cons_succ]
        omega
      · intro j hj
        cases j with
        | zero =>
          rw [cumWeight_cons_zero]
          omega
        | succ m =>
          have hm : m < i := Nat.lt_of_succ_lt_succ hj
          have := hfirst m hm
          rw [cumWeight_cons_succ]
          omega

/-- C2: for a positive total weight and a draw `r` in `[0, T)`, the weighted
random `Next` returns the first entry in list order whose cumulative weight
exceeds `r` (the subtractive walk and the cumulative characterization agree). -/
theorem RandomWeightNext_first_covering (servers : List Server) (r : Int)
    (h0 : 0 ≤ r) (hr : r < totalWeightS servers) :
    ∃ i, ∃ hi : i < servers.length,
      RandomWeightNext servers r = (servers.get ⟨i, hi⟩).Addr ∧
      r < cumWeight servers i ∧
      ∀ j, j < i → cumWeight servers j ≤ r := by
  obtain ⟨i, hi, hwalk, hpos, hcum, hfirst⟩ := walk_spec servers r h0 hr
  cases servers with
  | nil => simp at hi
  | cons s tl =>
    refine ⟨i, hi, ?_, hcum, hfirst⟩
    have hT : ¬ totalWeightS (s :: tl) ≤ 0 := by omega
    show (if totalWeightS (s :: tl) ≤ 0 then ""
      else match walk r (s :: tl) with
        | some s2 => s2.Addr
        | none => s.Addr) = _
    rw [if_neg hT, hwalk]

/-- Witness for C2: weights `[2, 3]` with draw 3 select the second server,
the first one whose cumulative weight (5) exceeds 3. -/
theorem RandomWeightNext_first_covering_witness :
    RandomWeightNext [{ Addr := "a", Weight := 2 }, { Addr := "b", Weight := 3 }] 3 = "b" := by
  obtain ⟨i, hi, heq, hcum, hfirst⟩ :=
    RandomWeightNext_first_covering
      [{ Addr := "a", Weight := 2 }, { Addr := "b", Weight := 3 }] 3 (by decide) (by decide)
  match i, hi with
  | 0, _ =>
    rw [cumWeight_cons_zero] at hcum
    simp at hcum
  | 1, _ => exact heq

/-- C8: for a positive total weight and any draw in `[0, T)`, the entry
returned by the weighted random `Next` has strictly positive weight, even when
non-positive-weight entries are present. -/
theorem RandomWeightNext_positive_weight (servers : List Server) (r : Int)
    (h0 : 0 ≤ r) (hr : r < totalWeightS servers) :
    ∃ i, ∃ hi : i < servers.length,
      RandomWeightNext servers r = (servers.get ⟨i, hi⟩).Addr ∧
      0 < (servers.get ⟨i, hi⟩).Weight := by
  obtain ⟨i, hi, hwalk, hpos, _, _⟩ := walk_spec servers r h0 hr
  cases servers with
  | nil => simp at hi
  | cons s tl =>
    refine ⟨i, hi, ?_, hpos⟩
    have hT : ¬ totalWeightS (s :: tl) ≤ 0 := by omega
    show (if totalWeightS (s :: tl) ≤ 0 then ""
      else match walk r (s :: tl) with
        | some s2 => s2.Addr
        | none => s.Addr) = _
    rw [if_neg hT, hwalk]

/-- Witness for C8: with a negative-weight entry present (weights `[-1, 5]`,
total 4) and draw 0, the selected server is the positive-weight one. -/
theorem RandomWeightNext_positive_weight_witness :
    RandomWeightNext [{ Addr := "a", Weight := -1 }, { Addr := "b", Weight := 5 }] 0 = "b" := by
  obtain ⟨i, hi, heq, hpos⟩ :=
    RandomWeightNext_positive_weight
      [{ Addr := "a", Weight := -1 }, { Addr := "b", Weight := 5 }] 0 (by decide) (by decide)
  match i, hi with
  | 0, _ => simp at hpos
  | 1, _ => exact heq

/-- C10: whenever the total weight is positive, the subtractive walk returns
from inside the loop for every draw in `[0, T)`; the trailing fallback
`servers[0].Addr` is unreachable. -/
theorem RandomWeightNext_loop_returns (servers : List Server) (r : Int)
    (h0 : 0 ≤ r) (hr : r < totalWeightS servers) :
    ∃ s, walk r servers = some s ∧ RandomWeightNext servers r = s.Addr := by
  obtain ⟨i, hi, hwalk, _, _, _⟩ := walk_spec servers r h0 hr
  cases servers with
  | nil => simp at hi
  | cons s tl =>
    refine ⟨(s :: tl).get ⟨i, hi⟩, hwalk, ?_⟩
    have hT : ¬ totalWeightS (s :: tl) ≤ 0 := by omega
    show (if totalWeightS (s :: tl) ≤ 0 then ""
      else match walk r (s :: tl) with
        | some s2 => s2.Addr
        | none => s.Addr) = _
    rw [if_neg hT, hwalk]

/-- Witness for C10: weights `[2, 3]` with draw 1 return from the loop at the
first server. -/
theorem RandomWeightNext_loop_returns_witness :
    walk 1 [{ Addr := "a", Weight := 2 }, { Addr := "b", Weight := 3 }] =
      some { Addr := "a", Weight := 2 } ∧
    RandomWeightNext [{ Addr := "a", Weight := 2 }, { Addr := "b", Weight := 3 }] 1 = "a" := by
  obtain ⟨s, hw2, he⟩ :=
    RandomWeightNext_loop_returns
      [{ Addr := "a", Weight := 2 }, { Addr := "b", Weight := 3 }] 1 (by decide) (by decide)
  have hs : s = { Addr := "a", Weight := 2 } := by
    have hcomp : walk 1 [{ Addr := "a", Weight := 2 }, { Addr := "b", Weight := 3 }] =
        some { Addr := "a", Weight := 2 } := by decide
    rw [hcomp] at hw2
    exact (Option.some.inj hw2).symm
  subst hs
  exact ⟨hw2, he⟩

/-! ### Plain round robin -/

lemma rrNext_fst (b : RoundRobinBalancer) (h : ¬ b.servers.length = 0) :
    (rrNext b).1 =
      b.servers.getD ((((b.index + 1) % U64 + (U64 - 1)) % U64) % b.servers.length) "" := by
  unfold rrNext
  rw [if_neg h]

lemma rrNext_snd (b : RoundRobinBalancer) (h : ¬ b.servers.length = 0) :
    (rrNext b).2 = { b with index := (b.index + 1) % U64 } := by
  unfold rrNext
  rw [if_neg h]

lemma rrNext_empty (b : RoundRobinBalancer) (h : b.servers = []) :
    rrNext b = ("", b) := by
  unfold rrNext
  rw [if_pos (by rw [h]; rfl)]

lemma rrNext_servers (b : RoundRobinBalancer) : (rrNext b).2.servers = b.servers := by
  by_cases h : b.servers.length = 0
  · rw [rrNext_empty b (List.eq_nil_of_length_eq_zero h)]
  · rw [rrNext_snd b h]

lemma rrRun_servers (b : RoundRobinBalancer) (k : Nat) :
    (rrRun b k).servers = b.servers := by
  induction k with
  | zero => rfl
  | succ k ih =>
    show (rrNext (rrRun b k)).2.servers = b.servers
    rw [rrNext_servers, ih]

lemma rrRun_index (servers : List String) (hne : ¬ servers.length = 0) (m : Nat) :
    (rrRun { servers := servers, index := 0 } m).index = m % U64 := by
  induction m with
  | zero =>
    show 0 = 0 % U64
    rw [Nat.zero_mod]
  | succ m ih =>
    have hlen : ¬ (rrRun { servers := servers, index := 0 } m).servers.length = 0 := by
      rw [rrRun_servers]
      exact hne
    show (rrNext (rrRun { servers := servers, index := 0 } m)).2.index = (m + 1) % U64
    rw [rrNext_snd _ hlen]
    show ((rrRun { servers := servers, index := 0 } m).index + 1) % U64 = (m + 1) % U64
    rw [ih]
    simp only [U64]
    omega

/-- Counterexample to C3: with three servers, the `(2^64 + 1)`-th call — the
first call after the `uint64` counter wraps — returns `servers[0]` while
`servers[(k-1) mod 3]` is `servers[1]` (because `2^64 mod 3 = 1`). -/
theorem rr_kth_call_counterexample :
    (rrNext (rrRun { servers := ["s1", "s2", "s3"], index := 0 } U64)).1 ≠
      ["s1", "s2", "s3"].getD (U64 % 3) "" := by
  have hlen : ¬ (["s1", "s2", "s3"] : List String).length = 0 := by decide
  have hs : (rrRun { servers := ["s1", "s2", "s3"], index := 0 } U64).servers =
      ["s1", "s2", "s3"] := rrRun_servers _ _
  have hidx : (rrRun { servers := ["s1", "s2", "s3"], index := 0 } U64).index = U64 % U64 :=
    rrRun_index _ hlen U64
  rw [rrNext_fst _ (by rw [hs]; exact hlen), hs, hidx, Nat.mod_self]
  have e1 : ((0 + 1) % U64 + (U64 - 1)) % U64 % (["s1", "s2", "s3"] : List String).length = 0 := by
    show ((0 + 1) % U64 + (U64 - 1)) % U64 % 3 = 0
    simp only [U64]
  have e2 : U64 % 3 = 1 := by
    simp only [U64]
  rw [e1, e2]
  decide

/-- C3 amended: as long as the call number `k` does not exceed `2^64`, the
k-th call (1-indexed) of the plain round robin balancer returns
`servers[(k-1) mod N]`; beyond the counter wrap the index is
`((k-1) mod 2^64) mod N` instead. -/
theorem rr_kth_call (servers : List String) (hne : ¬ servers.length = 0) (k : Nat)
    (h1 : 1 ≤ k) (h2 : k ≤ U64) :
    (rrNext (rrRun { servers := servers, index := 0 } (k - 1))).1 =
      servers.getD ((k - 1) % servers.length) "" := by
  have hs : (rrRun { servers := servers, index := 0 } (k - 1)).servers = servers :=
    rrRun_servers _ _
  have hidx : (rrRun { servers := servers, index := 0 } (k - 1)).index = (k - 1) % U64 :=
    rrRun_index _ hne (k - 1)
  rw [rrNext_fst _ (by rw [hs]; exact hne), hs, hidx]
  have h2L : k ≤ 18446744073709551616 := by
    simpa only [U64] using h2
  have harith : (((k - 1) % U64 + 1) % U64 + (U64 - 1)) % U64 = k - 1 := by
    simp only [U64]
    omega
  rw [harith]

/-- Witness for the amended C3: the 4-th call on three servers returns
`servers[3 mod 3] = "s1"`. -/
theorem rr_kth_call_witness :
    (rrNext (rrRun { servers := ["s1", "s2", "s3"], index := 0 } 3)).1 = "s1" := by
  have h := rr_kth_call ["s1", "s2", "s3"] (by decide) 4 (by omega)
    (by simp only [U64]; omega)
  simpa using h

/-- Counterexample to C7: the plain round robin constructor accepts the empty
server list and returns an instance (no construction-time failure). -/
theorem rr_new_empty_constructs :
    NewRoundRobinBalancer [] = some { servers := [], index := 0 } := rfl

/-- C7 amended: constructing the plain round robin balancer with zero servers
succeeds (construction performs no validation); the empty list is handled at
each `Next` call, which returns the empty-string sentinel and leaves the
state unchanged. -/
theorem rr_new_empty_amended :
    NewRoundRobinBalancer [] = some { servers := [], index := 0 } ∧
    ∀ b : RoundRobinBalancer, b.servers = [] → rrNext b = ("", b) :=
  ⟨rfl, fun b hb => rrNext_empty b hb⟩

/-- Witness for the amended C7: a `Next` call on an empty-list balancer
returns the sentinel and does not advance the counter. -/
theorem rr_new_empty_amended_witness :
    rrNext { servers := [], index := 5 } = ("", { servers := [], index := 5 }) :=
  rr_new_empty_amended.2 { servers := [], index := 5 } rfl

/-! ### Smoothness of the 4 : 1 pool -/

lemma smoothRun_state_add (ns : List Node) (a b : Nat) :
    (smoothRun ns (a + b)).2 = (smoothRun (smoothRun ns a).2 b).2 := by
  induction b with
  | zero => rfl
  | succ b ih =>
    rw [← Nat.add_assoc]
    simp only [smoothRun_succ]
    rw [ih]
    rcases hstep : smoothStep ((smoothRun (smoothRun ns a).2 b).2) with _ | ⟨⟨i, b2, ns2⟩⟩
    · simp [hstep, ih]
    · simp [hstep]

lemma nodes41_state_period : (smoothRun nodes41 5).2 = nodes41 := by decide

lemma nodes41_state_mod (k : Nat) :
    (smoothRun nodes41 k).2 = (smoothRun nodes41 (k % 5)).2 := by
  induction k using Nat.strong_induction_on with
  | _ k ih =>
    by_cases h : k < 5
    · rw [Nat.mod_eq_of_lt h]
    · have h5 : 5 + (k - 5) = k := by omega
      calc (smoothRun nodes41 k).2
          = (smoothRun nodes41 (5 + (k - 5))).2 := by rw [h5]
        _ = (smoothRun (smoothRun nodes41 5).2 (k - 5)).2 :=
            smoothRun_state_add nodes41 5 (k - 5)
        _ = (smoothRun nodes41 (k - 5)).2 := by rw [nodes41_state_period]
        _ = (smoothRun nodes41 ((k - 5) % 5)).2 := ih (k - 5) (by omega)
        _ = (smoothRun nodes41 (k % 5)).2 := by
            rw [show (k - 5) % 5 = k % 5 from by omega]

lemma selAt_nodes41_mod (k : Nat) : selAt nodes41 k = selAt nodes41 (k % 5) := by
  unfold selAt
  rw [nodes41_state_mod k]

/-- C6: for weights `[4, 1]` starting from the zero state, no run of the
heavier entry (index 0) exceeds 4 consecutive selections: any stretch of
calls that all select entry 0 has length at most 4. -/
theorem smoothRR_41_max_run (k len : Nat)
    (h : ∀ j, j < len → selAt nodes41 (k + j) = some 0) : len ≤ 4 := by
  by_contra hlen
  push_neg at hlen
  obtain ⟨j, hj5, hjm⟩ : ∃ j, j < 5 ∧ (k + j) % 5 = 2 :=
    ⟨(2 + 5 - k % 5) % 5, by omega, by omega⟩
  have h1 := h j (by omega)
  rw [selAt_nodes41_mod, hjm] at h1
  have h2 : selAt nodes41 2 = some 1 := by decide
  rw [h2] at h1
  simp at h1

/-- Witness for C6: the first two calls do select entry 0 twice in a row and
the bound holds for that run. -/
theorem smoothRR_41_max_run_witness :
    (∀ j, j < 2 → selAt nodes41 (0 + j) = some 0) ∧ 2 ≤ 4 :=
  ⟨by decide, smoothRR_41_max_run 0 2 (by decide)⟩

end Balance
